import Mathlib

/-
Verification of the quantum-circuit state-vector simulator design exercised by
the example programs of this repository (Intel Quantum SDK examples).

The amplitude store of an n-qubit register is embedded as a function
`ψ : ℕ → ℂ` giving the complex amplitude of each computational basis index;
qubit `q` corresponds to bit `q` of the index (`Nat.testBit`).  Sums over the
register range over `Finset.range (2 ^ n)`.

Definitions named after symbols of the repository's source files
(`MeasZ`, `PrepZ`, `CPhase`, `SwapA`, the `Custom...` callbacks, the circuit
kernels) are translated from those files.  Primitives of the external
simulation engine that the repository only calls (`GetProbability`,
`CollapseQubit`, `Normalize`, the gate applications, the noise channels, the
query surface) are modelled from the specification, as their doc comments say.
-/

noncomputable section

/-- Amplitude vector of the computational basis state with index `x`. -/
def basisState (x : ℕ) : ℕ → ℂ := fun i => if i = x then 1 else 0

/-- Modelled from the spec: `probability(qubit)` / IQS `GetProbability` of the
external engine "returns the marginal probability of measuring 1 on a given
qubit by summing squared magnitudes over all basis states with that bit set". -/
def GetProbability (n q : ℕ) (ψ : ℕ → ℂ) : ℝ :=
  ∑ i ∈ Finset.range (2 ^ n), if i.testBit q then Complex.normSq (ψ i) else 0

/-- Modelled from the spec: IQS `CollapseQubit` of the external engine zeroes
all basis amplitudes whose bit for qubit `q` disagrees with the outcome `b`. -/
def CollapseQubit (q : ℕ) (b : Bool) (ψ : ℕ → ℂ) : ℕ → ℂ :=
  fun i => if i.testBit q = b then ψ i else 0

/-- Modelled from the spec: IQS `Normalize` of the external engine rescales the
vector so the sum of squared magnitudes is 1 (division by the current norm). -/
def Normalize (n : ℕ) (ψ : ℕ → ℂ) : ℕ → ℂ :=
  fun i => ψ i / (Real.sqrt (∑ j ∈ Finset.range (2 ^ n), Complex.normSq (ψ j)) : ℝ)

/-- Modelled from the spec: the Pauli-X gate on qubit `q` (external engine's
`ApplyPauliX`), exchanging the two halves of each amplitude pair. -/
def ApplyPauliX (q : ℕ) (ψ : ℕ → ℂ) : ℕ → ℂ := fun i => ψ (i ^^^ 2 ^ q)

/-- Modelled from the spec: the Pauli-Z gate on qubit `q`, negating the
amplitudes whose bit `q` is set. -/
def ApplyPauliZ (q : ℕ) (ψ : ℕ → ℂ) : ℕ → ℂ :=
  fun i => if i.testBit q then -ψ i else ψ i

/-- Modelled from the spec: the Pauli-Y gate on qubit `q`. -/
def ApplyPauliY (q : ℕ) (ψ : ℕ → ℂ) : ℕ → ℂ :=
  fun i =>
    if i.testBit q then Complex.I * ψ (i ^^^ 2 ^ q)
    else -Complex.I * ψ (i ^^^ 2 ^ q)

/-- Modelled from the spec: the Hadamard gate on qubit `q`. -/
def ApplyHadamard (q : ℕ) (ψ : ℕ → ℂ) : ℕ → ℂ :=
  fun i =>
    if i.testBit q then (ψ (i ^^^ 2 ^ q) - ψ i) / (Real.sqrt 2 : ℝ)
    else (ψ i + ψ (i ^^^ 2 ^ q)) / (Real.sqrt 2 : ℝ)

/-- Modelled from the spec: the CNOT gate with control `c` and target `t`,
flipping bit `t` of the index wherever bit `c` is set. -/
def ApplyCNOT (c t : ℕ) (ψ : ℕ → ℂ) : ℕ → ℂ :=
  fun i => if i.testBit c then ψ (i ^^^ 2 ^ t) else ψ i

/-- `CustomBackend::MeasZ` of `examples/cpp/custom_backend.cpp` (also in the
IQS-comparison example): read the marginal probability of 1, compare the
uniform draw `rand_value` against it, collapse to the chosen branch, and
normalize; the classical outcome is returned with the new state. -/
def MeasZ (n q : ℕ) (rand_value : ℝ) (ψ : ℕ → ℂ) : Bool × (ℕ → ℂ) :=
  if rand_value > GetProbability n q ψ then
    (false, Normalize n (CollapseQubit q false ψ))
  else
    (true, Normalize n (CollapseQubit q true ψ))

/-- `CustomBackend::PrepZ` of the IQS-comparison example: preparation via
measurement and, possibly, bit flip.  If the draw exceeds the probability the
state is collapsed to the 0 branch and normalized; otherwise it is collapsed
to the 1 branch, normalized, and a Pauli-X is applied. -/
def PrepZ (n q : ℕ) (r : ℝ) (ψ : ℕ → ℂ) : ℕ → ℂ :=
  if r > GetProbability n q ψ then
    Normalize n (CollapseQubit q false ψ)
  else
    ApplyPauliX q (Normalize n (CollapseQubit q true ψ))

theorem testBit_xor_two_pow (i q : ℕ) : (i ^^^ 2 ^ q).testBit q = !i.testBit q := by
  simp [Nat.testBit_xor, Nat.testBit_two_pow_self, Bool.xor_comm]

theorem testBit_xor_two_pow_of_ne {q k : ℕ} (h : q ≠ k) (i : ℕ) :
    (i ^^^ 2 ^ q).testBit k = i.testBit k := by
  simp [Nat.testBit_xor, Nat.testBit_two_pow_of_ne h]

/-- Claim C1: `measure(q)` draws a uniform value `r` and compares it to the
marginal probability `p` of outcome 1 on `q`: the returned bit is 0 exactly
when `r > p` and 1 exactly when `r ≤ p` (ties go to 1), and the amplitude
vector is collapsed to the branch of the returned bit and renormalized. -/
theorem MeasZ_draw_convention_and_collapse (n q : ℕ) (r : ℝ) (ψ : ℕ → ℂ) :
    ((MeasZ n q r ψ).1 = true ↔ r ≤ GetProbability n q ψ) ∧
    ((MeasZ n q r ψ).1 = false ↔ GetProbability n q ψ < r) ∧
    (MeasZ n q r ψ).2 = Normalize n (CollapseQubit q (MeasZ n q r ψ).1 ψ) := by
  by_cases h : r > GetProbability n q ψ
  · refine ⟨?_, ?_, ?_⟩
    · simpa [MeasZ, if_pos h, not_le] using h
    · simpa [MeasZ, if_pos h] using h
    · simp only [MeasZ, if_pos h]
  · have hle : r ≤ GetProbability n q ψ := not_lt.mp h
    refine ⟨?_, ?_, ?_⟩
    · simpa [MeasZ, if_neg h] using hle
    · simpa [MeasZ, if_neg h, not_lt] using hle
    · simp only [MeasZ, if_neg h]

/-- Claim C10: after `CustomBackend::PrepZ`, whatever the prior state and the
random draw, the marginal probability of measuring 1 on the prepared qubit
is 0: the qubit is left in the state `|0>`. -/
theorem PrepZ_leaves_qubit_in_zero (n q : ℕ) (r : ℝ) (ψ : ℕ → ℂ) :
    GetProbability n q (PrepZ n q r ψ) = 0 := by
  by_cases h : r > GetProbability n q ψ
  · have hP : PrepZ n q r ψ = Normalize n (CollapseQubit q false ψ) := by
      simp only [PrepZ, if_pos h]
    rw [hP, GetProbability]
    refine Finset.sum_eq_zero fun i _ => ?_
    by_cases hb : i.testBit q
    · rw [if_pos hb]
      have hz : CollapseQubit q false ψ i = 0 := by simp [CollapseQubit, hb]
      simp [Normalize, hz]
    · rw [if_neg hb]
  · have hP : PrepZ n q r ψ = ApplyPauliX q (Normalize n (CollapseQubit q true ψ)) := by
      simp only [PrepZ, if_neg h]
    rw [hP, GetProbability]
    refine Finset.sum_eq_zero fun i _ => ?_
    by_cases hb : i.testBit q
    · rw [if_pos hb]
      have hflip : (i ^^^ 2 ^ q).testBit q = false := by
        rw [testBit_xor_two_pow, hb]
        rfl
      have hz : CollapseQubit q true ψ (i ^^^ 2 ^ q) = 0 := by
        simp [CollapseQubit, hflip]
      simp [ApplyPauliX, Normalize, hz]
    · rw [if_neg hb]

/-- Modelled from the spec: the external engine's `ApplyCPhaseRotation`
multiplies the amplitude of every basis state in which both qubits are 1 by
`exp(i θ)` and leaves the other amplitudes unchanged.  The SDK-level `CPhase`
intrinsic realizes its documented sign convention by calling this primitive
with the negated angle (see `CustomBackend::CPhase`). -/
def ApplyCPhaseRotation (q1 q2 : ℕ) (theta : ℝ) (ψ : ℕ → ℂ) : ℕ → ℂ :=
  fun i =>
    if i.testBit q1 && i.testBit q2 then Complex.exp (theta * Complex.I) * ψ i
    else ψ i

/-- `CustomBackend::CPhase` of `examples/cpp/custom_backend.cpp`: delegates to
`ApplyCPhaseRotation` with the negated angle. -/
def CPhase (ctrl target : ℕ) (angle : ℝ) (ψ : ℕ → ℂ) : ℕ → ℂ :=
  ApplyCPhaseRotation ctrl target (-angle) ψ

/-- Modelled from the spec: the CZ gate, negating the amplitude of every basis
state in which both qubits are 1. -/
def ApplyCZ (q1 q2 : ℕ) (ψ : ℕ → ℂ) : ℕ → ℂ :=
  fun i => if i.testBit q1 && i.testBit q2 then -ψ i else ψ i

/-- Claim C3: `CPhase(ctrl, target, angle)` multiplies the amplitude
components in which both qubits are 1 by the unit phase `exp(-i angle)` (the
phase `angle` under the SDK's documented sign convention) and leaves all other
components unchanged; at `angle = π` it is exactly the CZ gate. -/
theorem CPhase_phase_on_ones_and_CZ_at_pi (ctrl target : ℕ) (angle : ℝ)
    (ψ : ℕ → ℂ) (i : ℕ) :
    (CPhase ctrl target angle ψ i =
      if i.testBit ctrl && i.testBit target then
        Complex.exp (-(angle : ℂ) * Complex.I) * ψ i
      else ψ i) ∧
    CPhase ctrl target Real.pi ψ i = ApplyCZ ctrl target ψ i := by
  constructor
  · simp [CPhase, ApplyCPhaseRotation]
  · have hexp : Complex.exp ((-Real.pi : ℝ) * Complex.I) = -1 := by
      rw [Complex.ofReal_neg, neg_mul, Complex.exp_neg, Complex.exp_pi_mul_I]
      norm_num
    simp only [CPhase, ApplyCPhaseRotation, ApplyCZ, hexp]
    by_cases hb : i.testBit ctrl && i.testBit target
    · rw [if_pos hb, if_pos hb]
      ring
    · rw [if_neg hb, if_neg hb]

/-- Index permutation exchanging bits `a` and `b`: when the two bits differ,
both are flipped at once by xor with the two-bit mask. -/
def swapBits (a b i : ℕ) : ℕ :=
  if i.testBit a = i.testBit b then i else i ^^^ (2 ^ a ^^^ 2 ^ b)

/-- Modelled from the spec: the external engine's `ApplyISwapRotation` applies
the given 2×2 matrix on the span of the `|01>` and `|10>` components of each
amplitude quadruple for qubits `q1`, `q2`, leaving the `|00>` and `|11>`
components fixed. -/
def ApplyISwapRotation (q1 q2 : ℕ) (m : Fin 2 → Fin 2 → ℂ) (ψ : ℕ → ℂ) : ℕ → ℂ :=
  fun i =>
    if i.testBit q1 = i.testBit q2 then ψ i
    else if i.testBit q1 then
      m 0 0 * ψ i + m 0 1 * ψ (i ^^^ (2 ^ q1 ^^^ 2 ^ q2))
    else
      m 1 0 * ψ (i ^^^ (2 ^ q1 ^^^ 2 ^ q2)) + m 1 1 * ψ i

/-- The 2×2 matrix built by `CustomBackend::SwapA`: diagonal entries
`0.5(1+cos angle) + 0.5 i sin angle`, off-diagonal entries
`0.5(1-cos angle) - 0.5 i sin angle`. -/
def swapAMatrix (angle : ℝ) : Fin 2 → Fin 2 → ℂ :=
  fun r c =>
    if r = c then ⟨0.5 * (1.0 + Real.cos angle), 0.5 * Real.sin angle⟩
    else ⟨0.5 * (1.0 - Real.cos angle), -0.5 * Real.sin angle⟩

/-- `CustomBackend::SwapA` of `examples/cpp/custom_backend.cpp`: the
iSWAP-family rotation with the matrix above. -/
def SwapA (q1 q2 : ℕ) (angle : ℝ) (ψ : ℕ → ℂ) : ℕ → ℂ :=
  ApplyISwapRotation q1 q2 (swapAMatrix angle) ψ

/-- A concrete amplitude assignment used by the closed witness theorems. -/
def sampleAmp : ℕ → ℂ := fun i => (i : ℂ)

theorem two_pow_sub_one_xor_high (k : ℕ) :
    (2 ^ (k + 2) - 1) ^^^ 2 ^ (k + 1) = 2 ^ (k + 1) - 1 := by
  apply Nat.eq_of_testBit_eq
  intro j
  rw [Nat.testBit_xor, Nat.testBit_two_pow_sub_one, Nat.testBit_two_pow_sub_one,
    Nat.testBit_two_pow]
  by_cases hj : j = k + 1
  · subst hj
    simp
  · simp [Ne.symm hj, decide_eq_decide]
    omega

theorem two_pow_sub_one_xor_low (k : ℕ) :
    (2 ^ (k + 1) - 1) ^^^ 2 ^ (k + 1) = 2 ^ (k + 2) - 1 := by
  have h := congrArg (fun x => x ^^^ 2 ^ (k + 1)) (two_pow_sub_one_xor_high k)
  simpa [Nat.xor_cancel_right] using h.symm

/-- The GHZ circuit of `ghz_error.cpp`, `example.cpp` and the `GHZ(N)` kernels:
after preparing every qubit in `|0>`, a Hadamard on qubit 0 followed by
`CNOT(i, i+1)` for `i = 0 .. N-2`. -/
def ghzKernel (n : ℕ) : ℕ → ℂ :=
  (List.range (n - 1)).foldl (fun ψ i => ApplyCNOT i (i + 1) ψ)
    (ApplyHadamard 0 (basisState 0))

/-- The intermediate GHZ-chain state after the Hadamard and `k` CNOT gates:
equal weight `1/√2` on the index 0 and on the all-ones index of the first
`k + 1` qubits, and 0 everywhere else. -/
theorem ghz_chain_invariant (k : ℕ) :
    (List.range k).foldl (fun ψ i => ApplyCNOT i (i + 1) ψ)
      (ApplyHadamard 0 (basisState 0)) =
    fun i => if i = 0 ∨ i = 2 ^ (k + 1) - 1 then ((Real.sqrt 2 : ℝ) : ℂ)⁻¹ else 0 := by
  induction k with
  | zero =>
    funext i
    simp only [List.range_zero, List.foldl_nil]
    by_cases h0 : i = 0
    · subst h0
      norm_num [ApplyHadamard, basisState]
    · by_cases h1 : i = 1
      · subst h1
        have hb : Nat.testBit 1 0 = true := by decide
        norm_num [ApplyHadamard, basisState, hb]
      · have hx : i ^^^ 2 ^ 0 ≠ 0 := by
          intro hc
          apply h1
          have := congrArg (fun x => x ^^^ 2 ^ 0) hc
          simpa [Nat.xor_cancel_right] using this
        have hgoal : (if i = 0 ∨ i = 2 ^ (0 + 1) - 1 then ((Real.sqrt 2 : ℝ) : ℂ)⁻¹ else 0) = 0 := by
          rw [if_neg]
          intro hc
          rcases hc with hc | hc
          · exact h0 hc
          · exact h1 hc
        rw [hgoal, ApplyHadamard]
        by_cases hb : i.testBit 0
        · rw [if_pos hb]
          simp [basisState, h0, h1, hx]
        · rw [if_neg hb]
          simp [basisState, h0, h1, hx]
  | succ k ih =>
    rw [List.range_succ, List.foldl_append, List.foldl_cons, List.foldl_nil, ih]
    funext i
    by_cases hbk : i.testBit k
    · rw [ApplyCNOT]
      simp only [if_pos hbk]
      by_cases hall : i = 2 ^ (k + 2) - 1
      · subst hall
        rw [two_pow_sub_one_xor_high k]
        have h1 : (2 ^ (k + 1) - 1 = 0 ∨ 2 ^ (k + 1) - 1 = 2 ^ (k + 1) - 1) := Or.inr rfl
        have h2 : (2 ^ (k + 2) - 1 = 0 ∨ 2 ^ (k + 2) - 1 = 2 ^ (k + 2) - 1) := Or.inr rfl
        rw [if_pos h1, if_pos h2]
      · have hi0 : i ≠ 0 := by
          intro hc
          subst hc
          simp [Nat.zero_testBit] at hbk
        have hxne0 : i ^^^ 2 ^ (k + 1) ≠ 0 := by
          intro hc
          have : i = 2 ^ (k + 1) := by
            have := congrArg (fun x => x ^^^ 2 ^ (k + 1)) hc
            simpa [Nat.xor_cancel_right] using this
          subst this
          rw [Nat.testBit_two_pow] at hbk
          simp at hbk
        have hxnelow : i ^^^ 2 ^ (k + 1) ≠ 2 ^ (k + 1) - 1 := by
          intro hc
          apply hall
          have := congrArg (fun x => x ^^^ 2 ^ (k + 1)) hc
          simpa [Nat.xor_cancel_right, two_pow_sub_one_xor_low k] using this
        rw [if_neg, if_neg]
        · intro hc
          rcases hc with hc | hc
          · exact hi0 hc
          · exact hall hc
        · intro hc
          rcases hc with hc | hc
          · exact hxne0 hc
          · exact hxnelow hc
    · rw [ApplyCNOT]
      simp only [if_neg hbk]
      by_cases hi0 : i = 0
      · subst hi0
        have h1 : ((0 : ℕ) = 0 ∨ (0 : ℕ) = 2 ^ (k + 1) - 1) := Or.inl rfl
        have h2 : ((0 : ℕ) = 0 ∨ (0 : ℕ) = 2 ^ (k + 2) - 1) := Or.inl rfl
        rw [if_pos h1, if_pos h2]
      · have hlow : i ≠ 2 ^ (k + 1) - 1 := by
          intro hc
          subst hc
          rw [Nat.testBit_two_pow_sub_one] at hbk
          simp at hbk
        have hhigh : i ≠ 2 ^ (k + 2) - 1 := by
          intro hc
          subst hc
          rw [Nat.testBit_two_pow_sub_one] at hbk
          simp at hbk
        rw [if_neg, if_neg]
        · intro hc
          rcases hc with hc | hc
          · exact hi0 hc
          · exact hhigh hc
        · intro hc
          rcases hc with hc | hc
          · exact hi0 hc
          · exact hlow hc

/-- Claim C5: for `N ≥ 1`, the GHZ circuit (Hadamard on qubit 0 then the CNOT
chain, starting from `|0...0>`) produces a state whose amplitude vector is
`1/√2` at the basis indices 0 and `2^N - 1` (each therefore of magnitude
`1/√2`) and 0 at every other index: exactly two non-zero entries. -/
theorem ghzKernel_two_peaks (N : ℕ) (hN : 1 ≤ N) :
    ghzKernel N 0 = ((Real.sqrt 2 : ℝ) : ℂ)⁻¹ ∧
    ghzKernel N (2 ^ N - 1) = ((Real.sqrt 2 : ℝ) : ℂ)⁻¹ ∧
    Complex.abs (ghzKernel N 0) = (Real.sqrt 2)⁻¹ ∧
    Complex.abs (ghzKernel N (2 ^ N - 1)) = (Real.sqrt 2)⁻¹ ∧
    ∀ i, i ≠ 0 → i ≠ 2 ^ N - 1 → ghzKernel N i = 0 := by
  have hrange : N - 1 + 1 = N := by omega
  have habs : Complex.abs (((Real.sqrt 2 : ℝ) : ℂ)⁻¹) = (Real.sqrt 2)⁻¹ := by
    rw [map_inv₀, Complex.abs_ofReal]
    rw [abs_of_nonneg (Real.sqrt_nonneg 2)]
  have hk : ghzKernel N =
      fun i => if i = 0 ∨ i = 2 ^ N - 1 then ((Real.sqrt 2 : ℝ) : ℂ)⁻¹ else 0 := by
    rw [ghzKernel, ghz_chain_invariant, hrange]
  rw [hk]
  refine ⟨by simp, by simp, ?_, ?_, ?_⟩
  · simp [habs]
  · simp [habs]
  · intro i hi0 hiN
    have : ¬(i = 0 ∨ i = 2 ^ N - 1) := by
      intro hc
      rcases hc with hc | hc
      · exact hi0 hc
      · exact hiN hc
    simp only [if_neg this]

/-- Witness for claim C5 at `N = 3`. -/
theorem ghzKernel_two_peaks_witness :
    1 ≤ 3 ∧
      (ghzKernel 3 0 = ((Real.sqrt 2 : ℝ) : ℂ)⁻¹ ∧
      ghzKernel 3 (2 ^ 3 - 1) = ((Real.sqrt 2 : ℝ) : ℂ)⁻¹ ∧
      Complex.abs (ghzKernel 3 0) = (Real.sqrt 2)⁻¹ ∧
      Complex.abs (ghzKernel 3 (2 ^ 3 - 1)) = (Real.sqrt 2)⁻¹ ∧
      ∀ i, i ≠ 0 → i ≠ 2 ^ 3 - 1 → ghzKernel 3 i = 0) :=
  ⟨by norm_num, ghzKernel_two_peaks 3 (by norm_num)⟩

/-- Claim C4: at `angle = π` the iSWAP-family rotation built by `SwapA` is the
full SWAP gate: for distinct qubits it exchanges the amplitudes associated
with the two qubits' bit values (precomposition with the bit-swap
permutation of indices). -/
theorem SwapA_pi_is_full_swap (q1 q2 : ℕ) (hne : q1 ≠ q2) (ψ : ℕ → ℂ) (i : ℕ) :
    SwapA q1 q2 Real.pi ψ i = ψ (swapBits q1 q2 i) := by
  have hdiag : ∀ r : Fin 2, swapAMatrix Real.pi r r = 0 := by
    intro r
    rw [swapAMatrix, if_pos rfl]
    rw [Complex.ext_iff]
    constructor
    · norm_num [Real.cos_pi]
    · norm_num [Real.sin_pi]
  have hoff : ∀ r c : Fin 2, r ≠ c → swapAMatrix Real.pi r c = 1 := by
    intro r c hrc
    rw [swapAMatrix, if_neg hrc]
    rw [Complex.ext_iff]
    constructor
    · norm_num [Real.cos_pi]
    · norm_num [Real.sin_pi]
  by_cases hb : i.testBit q1 = i.testBit q2
  · rw [SwapA, ApplyISwapRotation, if_pos hb, swapBits, if_pos hb]
  · rw [SwapA, ApplyISwapRotation, if_neg hb, swapBits, if_neg hb]
    by_cases h1 : i.testBit q1
    · rw [if_pos h1, hdiag 0, hoff 0 1 (by decide)]
      ring
    · rw [if_neg h1, hdiag 1, hoff 1 0 (by decide)]
      ring

theorem ApplyHadamard_involutive (q : ℕ) (ψ : ℕ → ℂ) :
    ApplyHadamard q (ApplyHadamard q ψ) = ψ := by
  have hss : ((Real.sqrt 2 : ℝ) : ℂ) * ((Real.sqrt 2 : ℝ) : ℂ) = 2 := by
    rw [← Complex.ofReal_mul, Real.mul_self_sqrt]
    · norm_num
    · norm_num
  have hs : ((Real.sqrt 2 : ℝ) : ℂ) ≠ 0 := by
    intro hc
    rw [hc, mul_zero] at hss
    exact two_ne_zero hss.symm
  funext i
  have hxor : (i ^^^ 2 ^ q) ^^^ 2 ^ q = i := Nat.xor_cancel_right _ _
  by_cases hb : i.testBit q
  · have hbj : (i ^^^ 2 ^ q).testBit q = false := by
      rw [testBit_xor_two_pow, hb]
      rfl
    simp only [ApplyHadamard, hb, hbj, Bool.false_eq_true, if_true, if_false, hxor]
    field_simp
    rw [hss]
    ring
  · have hb0 : i.testBit q = false := Bool.eq_false_iff.mpr hb
    have hbj : (i ^^^ 2 ^ q).testBit q = true := by
      rw [testBit_xor_two_pow, hb0]
      rfl
    simp only [ApplyHadamard, hb0, hbj, Bool.false_eq_true, if_true, if_false, hxor]
    field_simp
    rw [hss]
    ring

/-- Modelled from the spec: the SWAP intrinsic exchanges the amplitudes of the
two qubits' bit values (the full SWAP gate; `SwapA` at `π` realizes it). -/
def ApplySwap (a b : ℕ) (ψ : ℕ → ℂ) : ℕ → ℂ := fun i => ψ (swapBits a b i)

/-- The gate alphabet of the `qft` and `qft_inverse` kernels of
`qft_error.cpp`: Hadamard, the CPhase intrinsic, and SWAP. -/
inductive QGate where
  | hGate : ℕ → QGate
  | cpGate : ℕ → ℕ → ℝ → QGate
  | swGate : ℕ → ℕ → QGate

/-- Semantics of one gate of the QFT kernels. -/
def applyQGate : QGate → (ℕ → ℂ) → (ℕ → ℂ)
  | QGate.hGate q => ApplyHadamard q
  | QGate.cpGate c t θ => CPhase c t θ
  | QGate.swGate a b => ApplySwap a b

/-- Running a gate list in program order. -/
def runGates (gs : List QGate) (ψ : ℕ → ℂ) : ℕ → ℂ :=
  gs.foldl (fun φ g => applyQGate g φ) ψ

/-- The inverse gate: H and SWAP are self-inverse, CPhase negates its angle. -/
def invQGate : QGate → QGate
  | QGate.hGate q => QGate.hGate q
  | QGate.cpGate c t θ => QGate.cpGate c t (-θ)
  | QGate.swGate a b => QGate.swGate a b

theorem testBit_two_pow_xor_two_pow (a b k : ℕ) :
    (2 ^ a ^^^ 2 ^ b).testBit k = (decide (a = k)).xor (decide (b = k)) := by
  rw [Nat.testBit_xor, Nat.testBit_two_pow, Nat.testBit_two_pow]

theorem testBit_swapBits_left (a b i : ℕ) :
    (swapBits a b i).testBit a = i.testBit b := by
  rw [swapBits]
  by_cases h : i.testBit a = i.testBit b
  · rw [if_pos h]
    exact h
  · rw [if_neg h]
    by_cases hab : a = b
    · subst hab
      exact absurd rfl h
    · rw [Nat.testBit_xor, testBit_two_pow_xor_two_pow]
      have h1 : decide (a = a) = true := by simp
      have h2 : decide (b = a) = false := by simp [Ne.symm hab]
      rw [h1, h2]
      revert h
      cases i.testBit a <;> cases i.testBit b <;> decide

theorem testBit_swapBits_right (a b i : ℕ) :
    (swapBits a b i).testBit b = i.testBit a := by
  rw [swapBits]
  by_cases h : i.testBit a = i.testBit b
  · rw [if_pos h]
    exact h.symm
  · rw [if_neg h]
    by_cases hab : a = b
    · subst hab
      exact absurd rfl h
    · rw [Nat.testBit_xor, testBit_two_pow_xor_two_pow]
      have h1 : decide (b = b) = true := by simp
      have h2 : decide (a = b) = false := by simp [hab]
      rw [h1, h2]
      revert h
      cases i.testBit a <;> cases i.testBit b <;> decide

theorem testBit_swapBits_other (a b i k : ℕ) (hka : k ≠ a) (hkb : k ≠ b) :
    (swapBits a b i).testBit k = i.testBit k := by
  rw [swapBits]
  by_cases h : i.testBit a = i.testBit b
  · rw [if_pos h]
  · rw [if_neg h, Nat.testBit_xor, testBit_two_pow_xor_two_pow]
    have h1 : decide (a = k) = false := by simp [Ne.symm hka]
    have h2 : decide (b = k) = false := by simp [Ne.symm hkb]
    rw [h1, h2]
    cases i.testBit k <;> decide

theorem swapBits_involutive (a b i : ℕ) : swapBits a b (swapBits a b i) = i := by
  by_cases h : i.testBit a = i.testBit b
  · have hinner : swapBits a b i = i := by rw [swapBits, if_pos h]
    rw [hinner, hinner]
  · have hinner : swapBits a b i = i ^^^ (2 ^ a ^^^ 2 ^ b) := by
      rw [swapBits, if_neg h]
    rw [hinner]
    by_cases hab : a = b
    · subst hab
      exact absurd rfl h
    · have hmaska : (2 ^ a ^^^ 2 ^ b).testBit a = true := by
        rw [testBit_two_pow_xor_two_pow]
        simp [Ne.symm hab]
      have hmaskb : (2 ^ a ^^^ 2 ^ b).testBit b = true := by
        rw [testBit_two_pow_xor_two_pow]
        simp [hab]
      have hxa : (i ^^^ (2 ^ a ^^^ 2 ^ b)).testBit a = !(i.testBit a) := by
        rw [Nat.testBit_xor, hmaska, Bool.xor_true]
      have hxb : (i ^^^ (2 ^ a ^^^ 2 ^ b)).testBit b = !(i.testBit b) := by
        rw [Nat.testBit_xor, hmaskb, Bool.xor_true]
      have hcond : ¬((i ^^^ (2 ^ a ^^^ 2 ^ b)).testBit a =
          (i ^^^ (2 ^ a ^^^ 2 ^ b)).testBit b) := by
        rw [hxa, hxb]
        revert h
        cases i.testBit a <;> cases i.testBit b <;> decide
      rw [swapBits, if_neg hcond, Nat.xor_cancel_right]

/-- Two index pairs touching four pairwise-different bit positions. -/
def pairDisjoint (p q : ℕ × ℕ) : Prop :=
  p.1 ≠ q.1 ∧ p.1 ≠ q.2 ∧ p.2 ≠ q.1 ∧ p.2 ≠ q.2

theorem swapBits_comm_of_pairDisjoint (p q : ℕ × ℕ) (hd : pairDisjoint p q) (i : ℕ) :
    swapBits p.1 p.2 (swapBits q.1 q.2 i) = swapBits q.1 q.2 (swapBits p.1 p.2 i) := by
  obtain ⟨h11, h12, h21, h22⟩ := hd
  apply Nat.eq_of_testBit_eq
  intro k
  by_cases hka : k = p.1
  · subst hka
    rw [testBit_swapBits_left, testBit_swapBits_other q.1 q.2 i p.2 h21 h22,
      testBit_swapBits_other q.1 q.2 _ p.1 h11 h12, testBit_swapBits_left]
  · by_cases hkb : k = p.2
    · subst hkb
      rw [testBit_swapBits_right, testBit_swapBits_other q.1 q.2 i p.1 h11 h12,
        testBit_swapBits_other q.1 q.2 _ p.2 h21 h22, testBit_swapBits_right]
    · rw [testBit_swapBits_other p.1 p.2 _ k (fun hc => hka hc) (fun hc => hkb hc)]
      by_cases hkc : k = q.1
      · subst hkc
        rw [testBit_swapBits_left, testBit_swapBits_left,
          testBit_swapBits_other p.1 p.2 i q.2 (Ne.symm h12) (Ne.symm h22)]
      · by_cases hkd : k = q.2
        · subst hkd
          rw [testBit_swapBits_right, testBit_swapBits_right,
            testBit_swapBits_other p.1 p.2 i q.1 (Ne.symm h11) (Ne.symm h21)]
        · rw [testBit_swapBits_other q.1 q.2 i k hkc hkd,
            testBit_swapBits_other q.1 q.2 _ k hkc hkd,
            testBit_swapBits_other p.1 p.2 i k hka hkb]

/-- The index permutation of a list of bit-pair swaps, innermost first. -/
def permSwaps : List (ℕ × ℕ) → ℕ → ℕ
  | [], i => i
  | p :: r, i => swapBits p.1 p.2 (permSwaps r i)

theorem runGates_swapList (l : List (ℕ × ℕ)) (ψ : ℕ → ℂ) :
    runGates (l.map fun p => QGate.swGate p.1 p.2) ψ = fun i => ψ (permSwaps l i) := by
  induction l generalizing ψ with
  | nil =>
    funext i
    rfl
  | cons p r ih =>
    rw [List.map_cons]
    rw [show runGates (QGate.swGate p.1 p.2 :: r.map fun p => QGate.swGate p.1 p.2) ψ =
      runGates (r.map fun p => QGate.swGate p.1 p.2) (ApplySwap p.1 p.2 ψ) from rfl]
    rw [ih]
    funext i
    rw [permSwaps, ApplySwap]

theorem swapBits_permSwaps_comm (p : ℕ × ℕ) (l : List (ℕ × ℕ))
    (hd : ∀ q ∈ l, pairDisjoint p q) (i : ℕ) :
    swapBits p.1 p.2 (permSwaps l i) = permSwaps l (swapBits p.1 p.2 i) := by
  induction l with
  | nil => rfl
  | cons q r ih =>
    have hq : pairDisjoint p q := hd q (List.mem_cons_self q r)
    have hr : ∀ s ∈ r, pairDisjoint p s := fun s hs => hd s (List.mem_cons_of_mem q hs)
    rw [permSwaps, permSwaps, swapBits_comm_of_pairDisjoint p q hq, ih hr]

theorem permSwaps_involutive (l : List (ℕ × ℕ)) (hpw : l.Pairwise pairDisjoint) (i : ℕ) :
    permSwaps l (permSwaps l i) = i := by
  induction l generalizing i with
  | nil => rfl
  | cons p r ih =>
    rcases List.pairwise_cons.mp hpw with ⟨hp, hr⟩
    show swapBits p.1 p.2 (permSwaps r (swapBits p.1 p.2 (permSwaps r i))) = i
    rw [← swapBits_permSwaps_comm p r hp, swapBits_involutive, ih hr]

theorem applyQGate_inv (g : QGate) (ψ : ℕ → ℂ) :
    applyQGate (invQGate g) (applyQGate g ψ) = ψ := by
  cases g with
  | hGate q => exact ApplyHadamard_involutive q ψ
  | cpGate c t θ =>
    funext i
    simp only [applyQGate, invQGate, CPhase, ApplyCPhaseRotation]
    by_cases hb : (i.testBit c && i.testBit t) = true
    · rw [if_pos hb, if_pos hb, ← mul_assoc]
      have harg : ((- -θ : ℝ) : ℂ) * Complex.I + ((-θ : ℝ) : ℂ) * Complex.I = 0 := by
        push_cast
        ring
      rw [← Complex.exp_add, harg, Complex.exp_zero, one_mul]
    · rw [if_neg hb, if_neg hb]
  | swGate a b =>
    funext i
    simp only [applyQGate, invQGate, ApplySwap]
    rw [swapBits_involutive]

theorem runGates_append (L M : List QGate) (ψ : ℕ → ℂ) :
    runGates (L ++ M) ψ = runGates M (runGates L ψ) :=
  List.foldl_append _ _ _ _

/-- The reversed list of inverted gates: the inverse circuit of a gate list. -/
def revInv (L : List QGate) : List QGate := (L.map invQGate).reverse

theorem runGates_revInv (L : List QGate) (ψ : ℕ → ℂ) :
    runGates (revInv L) (runGates L ψ) = ψ := by
  induction L generalizing ψ with
  | nil => rfl
  | cons g r ih =>
    have h1 : revInv (g :: r) = revInv r ++ [invQGate g] := by
      simp [revInv]
    rw [h1, show runGates (g :: r) ψ = runGates r (applyQGate g ψ) from rfl,
      runGates_append, ih]
    exact applyQGate_inv g ψ

/-- The SWAP pairs of the QFT kernel: `(q, N-q-1)` for `q = 0 .. ⌊N/2⌋ - 1`. -/
def swapPairs (n : ℕ) : List (ℕ × ℕ) :=
  (List.range (n / 2)).map fun q => (q, n - q - 1)

/-- The qubit-reversing SWAP section shared by `qft` and `qft_inverse`. -/
def swapSection (n : ℕ) : List QGate :=
  (swapPairs n).map fun p => QGate.swGate p.1 p.2

theorem swapPairs_pairwise (n : ℕ) : (swapPairs n).Pairwise pairDisjoint := by
  rw [swapPairs, List.pairwise_iff_getElem]
  intro a b ha hb hab
  simp only [List.length_map, List.length_range] at ha hb
  simp only [List.getElem_map, List.getElem_range]
  refine ⟨?_, ?_, ?_, ?_⟩ <;> simp only [] <;> omega

theorem swapSection_squared (n : ℕ) (ψ : ℕ → ℂ) :
    runGates (swapSection n) (runGates (swapSection n) ψ) = ψ := by
  rw [swapSection, runGates_swapList, runGates_swapList]
  funext i
  exact congrArg ψ (permSwaps_involutive (swapPairs n) (swapPairs_pairwise n) i)

/-- The controlled-phase angle of the `qft` kernel at ladder distance `r`:
`2 * (1/M_1_PI) / 2^(r+1) = 2π / 2^(r+1)`. -/
def qftAngle (r : ℕ) : ℝ := 2 * Real.pi / 2 ^ (r + 1)

/-- The controlled-phase angle of the `qft_inverse` kernel: the negative of
the angle used in QFT, `-2π / 2^(r+1)`. -/
def qftInvAngle (r : ℕ) : ℝ := -2 * Real.pi / 2 ^ (r + 1)

theorem qftInvAngle_eq_neg (r : ℕ) : qftInvAngle r = -qftAngle r := by
  rw [qftAngle, qftInvAngle]
  ring

/-- One `index` iteration of the `qft` kernel: H on the qubit, then the ladder
of controlled-phase gates `CPhase(q[index+r], q[index], qftAngle r)` for
`r = 1 .. N-index-1` ascending. -/
def qftBlock (n index : ℕ) : List QGate :=
  QGate.hGate index ::
    ((List.range (n - index - 1)).map fun j =>
      QGate.cpGate (index + j + 1) index (qftAngle (j + 1)))

/-- One `index` iteration of the `qft_inverse` kernel: the controlled-phase
ladder with descending distance and the negated angles, then H. -/
def qftInvBlock (n index : ℕ) : List QGate :=
  ((List.range (n - index - 1)).reverse.map fun j =>
    QGate.cpGate (index + j + 1) index (qftInvAngle (j + 1))) ++ [QGate.hGate index]

/-- The `qft` kernel of `qft_error.cpp`: the phase blocks for
`index = 0 .. N-1`, then the SWAP section. -/
def qftKernel (n : ℕ) : List QGate :=
  ((List.range n).map (qftBlock n)).flatten ++ swapSection n

/-- The `qft_inverse` kernel of `qft_error.cpp`: the SWAP section first, then
the inverse phase blocks for `index = N-1` down to 0. -/
def qftInvKernel (n : ℕ) : List QGate :=
  swapSection n ++ ((List.range n).reverse.map (qftInvBlock n)).flatten

theorem revInv_qftBlock (n index : ℕ) : revInv (qftBlock n index) = qftInvBlock n index := by
  rw [qftBlock, qftInvBlock, revInv, List.map_cons, List.reverse_cons]
  congr 1
  rw [List.map_map, List.map_reverse]
  congr 1
  apply List.map_congr_left
  intro j hj
  simp only [Function.comp_apply, invQGate]
  rw [qftInvAngle_eq_neg]

theorem revInv_flatten (Ls : List (List QGate)) :
    revInv Ls.flatten = (Ls.map revInv).reverse.flatten := by
  induction Ls with
  | nil => rfl
  | cons L rest ih =>
    rw [List.flatten_cons, revInv, List.map_append, List.reverse_append]
    rw [show (List.map invQGate L).reverse = revInv L from rfl]
    rw [show (List.map invQGate rest.flatten).reverse = revInv rest.flatten from rfl]
    rw [ih, List.map_cons, List.reverse_cons, List.flatten_append]
    simp

theorem revInv_qft_blocks (n : ℕ) :
    revInv (((List.range n).map (qftBlock n)).flatten) =
      ((List.range n).reverse.map (qftInvBlock n)).flatten := by
  rw [revInv_flatten, List.map_map, ← List.map_reverse]
  congr 1
  apply List.map_congr_left
  intro index hidx
  simp only [Function.comp_apply]
  exact revInv_qftBlock n index

/-- Claim C6: applying the `qft` kernel and then the `qft_inverse` kernel to
any computational basis state of the N-qubit register returns the original
basis state, every amplitude exactly equal to the initial one. -/
theorem qft_then_inverse_roundtrip (n x : ℕ) :
    runGates (qftInvKernel n) (runGates (qftKernel n) (basisState x)) = basisState x := by
  rw [qftKernel, qftInvKernel, runGates_append, runGates_append, swapSection_squared,
    ← revInv_qft_blocks]
  exact runGates_revInv _ _

/-- Index flip on `Fin 2`, used to conjugate a 2×2 density matrix by X or Y. -/
def flipIdx : Fin 2 → Fin 2 := fun i => if i = 0 then 1 else 0

/-- Modelled from the spec: conjugation `ρ ↦ XρX` of a single-qubit density
matrix by the Pauli X. -/
def conjPauliX (ρ : Fin 2 → Fin 2 → ℂ) : Fin 2 → Fin 2 → ℂ :=
  fun i j => ρ (flipIdx i) (flipIdx j)

/-- Diagonal sign of the Pauli Z matrix. -/
def zsign : Fin 2 → ℂ := fun i => if i = 0 then 1 else -1

/-- Modelled from the spec: conjugation `ρ ↦ ZρZ`. -/
def conjPauliZ (ρ : Fin 2 → Fin 2 → ℂ) : Fin 2 → Fin 2 → ℂ :=
  fun i j => zsign i * ρ i j * zsign j

/-- The nonzero entry of row `i` of the Pauli Y matrix: `Y (i, flip i)`. -/
def yphase : Fin 2 → ℂ := fun i => if i = 0 then -Complex.I else Complex.I

/-- Modelled from the spec: conjugation `ρ ↦ YρY` (Y is Hermitian). -/
def conjPauliY (ρ : Fin 2 → Fin 2 → ℂ) : Fin 2 → Fin 2 → ℂ :=
  fun i j => yphase i * ρ (flipIdx i) (flipIdx j) * (starRingEnd ℂ) (yphase j)

/-- Modelled from the spec: "Depolarizing(p): with probability `p`, replace the
qubit's state with the maximally mixed state" — the replacement channel
`ρ ↦ (1-p)ρ + p·(I/2)`. -/
def depolarizingMixedReplace (p : ℝ) (ρ : Fin 2 → Fin 2 → ℂ) : Fin 2 → Fin 2 → ℂ :=
  fun i j => ((1 - p : ℝ) : ℂ) * ρ i j + ((p / 2 : ℝ) : ℂ) * (if i = j then 1 else 0)

/-- Modelled from the spec: the channel "apply one of X, Y, Z each with
probability `p/3` and the identity with probability `1-p`", which the claim
asserts to be the same channel as the maximally-mixed replacement. -/
def depolarizingPauliThirds (p : ℝ) (ρ : Fin 2 → Fin 2 → ℂ) : Fin 2 → Fin 2 → ℂ :=
  fun i j =>
    ((1 - p : ℝ) : ℂ) * ρ i j +
      ((p / 3 : ℝ) : ℂ) * (conjPauliX ρ i j + conjPauliY ρ i j + conjPauliZ ρ i j)

/-- Density matrix of the single-qubit pure state `a|0> + b|1>`. -/
def pureDensity (a b : ℂ) : Fin 2 → Fin 2 → ℂ :=
  fun i j => (if i = 0 then a else b) * (starRingEnd ℂ) (if j = 0 then a else b)

/-- Probability of measurement outcome 1 of a single-qubit density matrix. -/
def probOne (ρ : Fin 2 → Fin 2 → ℂ) : ℝ := (ρ 1 1).re

/-- Probability of measurement outcome 0 of a single-qubit density matrix. -/
def probZero (ρ : Fin 2 → Fin 2 → ℂ) : ℝ := (ρ 0 0).re

/-- Counterexample to claim C2 as stated: the claim identifies the
depolarizing channel with the mixture applying X, Y, Z each with probability
`p/3` and the identity with `1-p`; on the pure state `|0>` that mixture at
`p = 1` yields outcome-1 probability `2/3`, not `0.5`, and it differs from
the maximally-mixed replacement channel there. -/
theorem depolarizing_thirds_at_one_not_half :
    probOne (depolarizingPauliThirds 1 (pureDensity 1 0)) = 2 / 3 ∧
    probOne (depolarizingPauliThirds 1 (pureDensity 1 0)) ≠ 1 / 2 ∧
    probOne (depolarizingMixedReplace 1 (pureDensity 1 0)) = 1 / 2 := by
  have h1 : probOne (depolarizingPauliThirds 1 (pureDensity 1 0)) = 2 / 3 := by
    simp [probOne, depolarizingPauliThirds, conjPauliX, conjPauliY, conjPauliZ,
      pureDensity, flipIdx, yphase, zsign]
    norm_num
  have h2 : probOne (depolarizingMixedReplace 1 (pureDensity 1 0)) = 1 / 2 := by
    simp [probOne, depolarizingMixedReplace, pureDensity]
  exact ⟨h1, by rw [h1]; norm_num, h2⟩

/-- Claim C2 amended: with the depolarizing channel defined as replacing the
qubit's state with the maximally mixed state (the `p/3` Pauli mixture is a
different channel), intensity `p = 1` yields probability exactly `0.5` for
each measurement outcome on every single-qubit pure state. -/
theorem depolarizing_replace_at_one_gives_half (a b : ℂ)
    (hpure : Complex.normSq a + Complex.normSq b = 1) :
    probOne (depolarizingMixedReplace 1 (pureDensity a b)) = 1 / 2 ∧
    probZero (depolarizingMixedReplace 1 (pureDensity a b)) = 1 / 2 := by
  constructor
  · simp [probOne, depolarizingMixedReplace, pureDensity]
  · simp [probZero, depolarizingMixedReplace, pureDensity]

/-- Witness for the amended claim C2 at the pure state `|0>`. -/
theorem depolarizing_replace_at_one_gives_half_witness :
    Complex.normSq 1 + Complex.normSq 0 = 1 ∧
      (probOne (depolarizingMixedReplace 1 (pureDensity 1 0)) = 1 / 2 ∧
       probZero (depolarizingMixedReplace 1 (pureDensity 1 0)) = 1 / 2) :=
  ⟨by simp, depolarizing_replace_at_one_gives_half 1 0 (by simp)⟩

/-- The `iqsdk::IqsCustomOp` specification value, fields as documented in the
custom-backend example: pre-operation noise intensities (dephasing,
depolarizing, amplitude damping, bit flip), the process matrix in row-major
order (empty means "ideal"), the cache label, and the post-operation noise
intensities. -/
structure IqsCustomOp where
  pre_dephasing : ℝ
  pre_depolarizing : ℝ
  pre_amplitude_damping : ℝ
  pre_bitflip : ℝ
  process_matrix : List ℂ
  label : String
  post_dephasing : ℝ
  post_depolarizing : ℝ
  post_amplitude_damping : ℝ
  post_bitflip : ℝ

/-- The ideal sentinel `iqsdk::k_iqs_ideal_op = {0, 0, 0, 0, {}, "ideal", 0, 0, 0, 0}`. -/
def k_iqs_ideal_op : IqsCustomOp := ⟨0, 0, 0, 0, [], "ideal", 0, 0, 0, 0⟩

/-- The depolarizing rate constant of the IQS-comparison example. -/
def k_depol_rate : ℝ := 0.02

/-- `CustomRotXY` of the IQS-comparison example (the custom-noise IQS API
part): the two process matrices are parsed from external CSV files, so they
enter as parameters.  Branches: Ry(+π/2) returns the yppi2 matrix with label
`"yppi2"`; Ry(-π/2) returns the ynpi2 matrix with label `"ynpi2"`; otherwise
pre-operation depolarizing noise at `k_depol_rate` with no process matrix. -/
def CustomRotXY (chi_yppi2 chi_ynpi2 : List ℂ) (q : ℕ) (phi gamma : ℝ) : IqsCustomOp :=
  if |phi - Real.pi / 2| < 1e-4 ∧ |gamma - Real.pi / 2| < 1e-4 then
    ⟨0, 0, 0, 0, chi_yppi2, "yppi2", 0, 0, 0, 0⟩
  else if (|phi - Real.pi / 2| < 1e-4 ∧ |gamma + Real.pi / 2| < 1e-4) ∨
      (|phi - 3 * Real.pi / 2| < 1e-4 ∧ |gamma - Real.pi / 2| < 1e-4) then
    ⟨0, 0, 0, 0, chi_ynpi2, "ynpi2", 0, 0, 0, 0⟩
  else
    ⟨0, k_depol_rate, 0, 0, [], "", 0, 0, 0, 0⟩

/-- `CustomRotXY` of the custom-noise-backend MBL example: the same branch
structure, but the Ry(-π/2) branch builds its spec from the ynpi2 CSV files
under the label `"yppi2"`, and the else branch constructs a depolarizing op
and then returns the ideal sentinel instead. -/
def CustomRotXY_mbl (chi_yppi2 chi_ynpi2 : List ℂ) (q : ℕ) (phi gamma : ℝ) : IqsCustomOp :=
  if |phi - Real.pi / 2| < 1e-4 ∧ |gamma - Real.pi / 2| < 1e-4 then
    ⟨0, 0, 0, 0, chi_yppi2, "yppi2", 0, 0, 0, 0⟩
  else if (|phi - Real.pi / 2| < 1e-4 ∧ |gamma + Real.pi / 2| < 1e-4) ∨
      (|phi - 3 * Real.pi / 2| < 1e-4 ∧ |gamma - Real.pi / 2| < 1e-4) then
    ⟨0, 0, 0, 0, chi_ynpi2, "yppi2", 0, 0, 0, 0⟩
  else
    k_iqs_ideal_op

theorem abs_self_sub_half_pi_lt : |Real.pi / 2 - Real.pi / 2| < 1e-4 := by
  norm_num

theorem abs_neg_half_pi_sub_half_pi_not_lt :
    ¬(|(-(Real.pi / 2)) - Real.pi / 2| < 1e-4) := by
  have heq : (-(Real.pi / 2)) - Real.pi / 2 = -Real.pi := by ring
  rw [heq, abs_neg, abs_of_pos Real.pi_pos]
  intro hc
  have h3 := Real.pi_gt_three
  norm_num at hc
  linarith

/-- Claim C8 at the failing input: in the MBL example's `CustomRotXY`
callback, the invocation at `(φ, γ) = (π/2, π/2)` and the invocation at
`(π/2, -π/2)` both return the non-empty label `"yppi2"`, yet carry the yppi2
and the ynpi2 process matrices respectively: whenever the two parsed CSV
matrices differ, identical labels do not imply identical process matrices. -/
theorem CustomRotXY_mbl_label_collision (chi_yppi2 chi_ynpi2 : List ℂ) :
    (CustomRotXY_mbl chi_yppi2 chi_ynpi2 0 (Real.pi / 2) (Real.pi / 2)).label = "yppi2" ∧
    (CustomRotXY_mbl chi_yppi2 chi_ynpi2 0 (Real.pi / 2) (-(Real.pi / 2))).label = "yppi2" ∧
    (CustomRotXY_mbl chi_yppi2 chi_ynpi2 0 (Real.pi / 2) (Real.pi / 2)).process_matrix =
      chi_yppi2 ∧
    (CustomRotXY_mbl chi_yppi2 chi_ynpi2 0 (Real.pi / 2) (-(Real.pi / 2))).process_matrix =
      chi_ynpi2 := by
  have hyes : |Real.pi / 2 - Real.pi / 2| < 1e-4 ∧ |Real.pi / 2 - Real.pi / 2| < 1e-4 :=
    ⟨abs_self_sub_half_pi_lt, abs_self_sub_half_pi_lt⟩
  have hno : ¬(|Real.pi / 2 - Real.pi / 2| < 1e-4 ∧
      |(-(Real.pi / 2)) - Real.pi / 2| < 1e-4) := by
    intro hc
    exact abs_neg_half_pi_sub_half_pi_not_lt hc.2
  have hsnd : (|Real.pi / 2 - Real.pi / 2| < 1e-4 ∧
      |(-(Real.pi / 2)) + Real.pi / 2| < 1e-4) ∨
      (|Real.pi / 2 - 3 * Real.pi / 2| < 1e-4 ∧
      |(-(Real.pi / 2)) - Real.pi / 2| < 1e-4) := by
    left
    refine ⟨abs_self_sub_half_pi_lt, ?_⟩
    norm_num
  have h1 : CustomRotXY_mbl chi_yppi2 chi_ynpi2 0 (Real.pi / 2) (Real.pi / 2) =
      ⟨0, 0, 0, 0, chi_yppi2, "yppi2", 0, 0, 0, 0⟩ := by
    rw [CustomRotXY_mbl, if_pos hyes]
  have h2 : CustomRotXY_mbl chi_yppi2 chi_ynpi2 0 (Real.pi / 2) (-(Real.pi / 2)) =
      ⟨0, 0, 0, 0, chi_ynpi2, "yppi2", 0, 0, 0, 0⟩ := by
    rw [CustomRotXY_mbl, if_neg hno, if_pos hsnd]
  rw [h1, h2]
  exact ⟨rfl, rfl, rfl, rfl⟩

/-- The corrected labelling of the IQS-comparison example's `CustomRotXY`
satisfies the cache contract: two invocations returning the same non-empty
label always carry the same process matrix. -/
theorem CustomRotXY_label_determines_matrix (chi_yppi2 chi_ynpi2 : List ℂ)
    (q1 q2 : ℕ) (phi1 gamma1 phi2 gamma2 : ℝ)
    (hlabel : (CustomRotXY chi_yppi2 chi_ynpi2 q1 phi1 gamma1).label =
      (CustomRotXY chi_yppi2 chi_ynpi2 q2 phi2 gamma2).label)
    (hne : (CustomRotXY chi_yppi2 chi_ynpi2 q1 phi1 gamma1).label ≠ "") :
    (CustomRotXY chi_yppi2 chi_ynpi2 q1 phi1 gamma1).process_matrix =
      (CustomRotXY chi_yppi2 chi_ynpi2 q2 phi2 gamma2).process_matrix := by
  unfold CustomRotXY at hlabel hne ⊢
  split_ifs at hlabel hne ⊢ <;> simp_all

/-- Modelled from the spec: a simulator session owning the amplitude store,
the seeded random stream, and the current position in that stream. -/
structure SimSession (n : ℕ) where
  amp : ℕ → ℂ
  rng : ℕ → ℝ
  pos : ℕ

/-- Modelled from the spec: `getProbabilities` — a read-only projection
returning marginal probabilities over the current amplitude store; the
session comes back unchanged. -/
def getProbabilities {n : ℕ} (s : SimSession n) (qubits : List ℕ) :
    List ℝ × SimSession n :=
  (qubits.map fun q => GetProbability n q s.amp, s)

/-- Modelled from the spec: `getAmplitudes` — a read-only projection of the
amplitudes at the requested basis indices. -/
def getAmplitudes {n : ℕ} (s : SimSession n) (basisList : List ℕ) :
    List ℂ × SimSession n :=
  (basisList.map s.amp, s)

/-- Modelled from the spec: `getExpectationValue` of a Pauli-Z string over the
listed qubits: the sum of `|amplitude|²` weighted by the parity of the
selected bits. -/
def getExpectationValue {n : ℕ} (s : SimSession n) (qubits : List ℕ) :
    ℝ × SimSession n :=
  (∑ i ∈ Finset.range (2 ^ n),
      (if (qubits.countP fun q => i.testBit q) % 2 = 0 then 1 else -1) *
        Complex.normSq (s.amp i),
    s)

/-- Inverse-CDF choice of a basis index: walk the indices in order, consuming
probability mass `|amplitude|²` from the draw until it fits. -/
def pickIndex (ψ : ℕ → ℂ) : List ℕ → ℝ → ℕ
  | [], _ => 0
  | i :: is, r =>
    if r < Complex.normSq (ψ i) then i else pickIndex ψ is (r - Complex.normSq (ψ i))

/-- Modelled from the spec: `getSamples` performs `count` independent virtual
measurements by sampling basis indices from `|amplitude|²` directly, never
collapsing the maintained amplitude vector; only the stream position moves. -/
def getSamples {n : ℕ} (count : ℕ) (qubits : List ℕ) (s : SimSession n) :
    List (List Bool) × SimSession n :=
  ((List.range count).map fun k =>
      qubits.map fun q =>
        (pickIndex s.amp (List.range (2 ^ n)) (s.rng (s.pos + k))).testBit q,
    ⟨s.amp, s.rng, s.pos + count⟩)

/-- Modelled from the spec: Dephasing(p) in trajectory form — apply Z with
probability `p`, identity with `1-p`; the uniform draw `r` decides. -/
def dephasingChannel (p r : ℝ) (q : ℕ) (ψ : ℕ → ℂ) : ℕ → ℂ :=
  if r < p then ApplyPauliZ q ψ else ψ

/-- Modelled from the spec: Bit-flip(p) in trajectory form — apply X with
probability `p`, identity with `1-p`. -/
def bitflipChannel (p r : ℝ) (q : ℕ) (ψ : ℕ → ℂ) : ℕ → ℂ :=
  if r < p then ApplyPauliX q ψ else ψ

/-- Modelled from the spec: Depolarizing(p) in trajectory form — apply X, Y or
Z each with probability `p/3`, identity with `1-p`. -/
def depolarizingChannel (p r : ℝ) (q : ℕ) (ψ : ℕ → ℂ) : ℕ → ℂ :=
  if r < p / 3 then ApplyPauliX q ψ
  else if r < 2 * p / 3 then ApplyPauliY q ψ
  else if r < p then ApplyPauliZ q ψ
  else ψ

/-- The amplitude-damping Kraus operator `K0 = diag(1, sqrt(1-γ))` on qubit `q`. -/
def dampK0 (γ : ℝ) (q : ℕ) (ψ : ℕ → ℂ) : ℕ → ℂ :=
  fun i => if i.testBit q then (Real.sqrt (1 - γ) : ℝ) * ψ i else ψ i

/-- The amplitude-damping Kraus operator `K1 = [[0, sqrt(γ)], [0, 0]]` on qubit `q`. -/
def dampK1 (γ : ℝ) (q : ℕ) (ψ : ℕ → ℂ) : ℕ → ℂ :=
  fun i => if i.testBit q then 0 else (Real.sqrt γ : ℝ) * ψ (i ^^^ 2 ^ q)

/-- Modelled from the spec: Amplitude-damping(γ) in trajectory form — the K1
jump is taken with probability `γ` times the excited population, else K0; the
state is renormalized afterwards. -/
def ampDampChannel (n : ℕ) (γ r : ℝ) (q : ℕ) (ψ : ℕ → ℂ) : ℕ → ℂ :=
  if r < γ * GetProbability n q ψ then Normalize n (dampK1 γ q ψ)
  else Normalize n (dampK0 γ q ψ)

/-- Modelled from the spec: RotationZ(γ) — `diag(e^{-iγ/2}, e^{iγ/2})` on qubit `q`. -/
def ApplyRotationZ (q : ℕ) (γ : ℝ) (ψ : ℕ → ℂ) : ℕ → ℂ :=
  fun i =>
    if i.testBit q then Complex.exp (((γ / 2 : ℝ) : ℂ) * Complex.I) * ψ i
    else Complex.exp ((-(γ / 2 : ℝ) : ℂ) * Complex.I) * ψ i

/-- Modelled from the spec: RotationXY(φ, γ) — the rotation by angle `γ` about
the axis at angle `φ` in the XY plane. -/
def ApplyRotationXY (q : ℕ) (phi γ : ℝ) (ψ : ℕ → ℂ) : ℕ → ℂ :=
  fun i =>
    if i.testBit q then
      (-Complex.I * Complex.exp (((phi : ℝ) : ℂ) * Complex.I) * (Real.sin (γ / 2) : ℝ)) *
          ψ (i ^^^ 2 ^ q) +
        ((Real.cos (γ / 2) : ℝ) : ℂ) * ψ i
    else
      ((Real.cos (γ / 2) : ℝ) : ℂ) * ψ i +
        (-Complex.I * Complex.exp ((-(phi : ℝ) : ℂ) * Complex.I) * (Real.sin (γ / 2) : ℝ)) *
          ψ (i ^^^ 2 ^ q)

/-- The operation families of the Custom Operation Dispatch, with their qubit
and parameter arguments. -/
inductive QOp where
  | prepOp : ℕ → QOp
  | rotXYOp : ℕ → ℝ → ℝ → QOp
  | rotZOp : ℕ → ℝ → QOp
  | cphaseOp : ℕ → ℕ → ℝ → QOp
  | iswapOp : ℕ → ℕ → ℝ → QOp
  | measOp : ℕ → QOp

/-- The qubits an operation acts on. -/
def opQubits : QOp → List ℕ
  | QOp.prepOp q => [q]
  | QOp.rotXYOp q _ _ => [q]
  | QOp.rotZOp q _ => [q]
  | QOp.cphaseOp a b _ => [a, b]
  | QOp.iswapOp a b _ => [a, b]
  | QOp.measOp q => [q]

/-- Modelled from the spec: the ideal execution of each operation family (the
empty-process-matrix case), consuming the random stream where the operation
itself is stochastic (preparation and measurement). -/
def idealApply (n : ℕ) : QOp → (ℕ → ℝ) → (ℕ → ℂ) → (ℕ → ℂ)
  | QOp.prepOp q, rs, ψ => PrepZ n q (rs 0) ψ
  | QOp.rotXYOp q phi γ, _, ψ => ApplyRotationXY q phi γ ψ
  | QOp.rotZOp q γ, _, ψ => ApplyRotationZ q γ ψ
  | QOp.cphaseOp a b θ, _, ψ => CPhase a b θ ψ
  | QOp.iswapOp a b θ, _, ψ => SwapA a b θ ψ
  | QOp.measOp q, rs, ψ => (MeasZ n q (rs 0) ψ).2

/-- The random stream advanced past its first `k` draws. -/
def shiftStream (k : ℕ) (rs : ℕ → ℝ) : ℕ → ℝ := fun i => rs (i + k)

/-- Modelled from the spec: the four pre/post phenomenological channels
applied in order (dephasing, depolarizing, amplitude damping, bit flip) to
one qubit, consuming four draws. -/
def noiseQuad (n : ℕ) (d p a b : ℝ) (q : ℕ) (rs : ℕ → ℝ) (ψ : ℕ → ℂ) : ℕ → ℂ :=
  bitflipChannel b (rs 3) q
    (ampDampChannel n a (rs 2) q
      (depolarizingChannel p (rs 1) q
        (dephasingChannel d (rs 0) q ψ)))

/-- The channel quad applied to each of the operation's qubits in turn, four
draws per qubit. -/
def noiseOnQubits (n : ℕ) (d p a b : ℝ) : List ℕ → (ℕ → ℝ) → (ℕ → ℂ) → (ℕ → ℂ)
  | [], _, ψ => ψ
  | q :: qs, rs, ψ =>
    noiseOnQubits n d p a b qs (shiftStream 4 rs) (noiseQuad n d p a b q rs ψ)

/-- Modelled from the spec: the Channel Application Engine's execution of one
operation under a `CustomOperationSpec`: pre-operation noise, then the
operation itself — the ideal unitary when the process matrix is empty, else
the chi-matrix channel (whose eigendecomposition lives in the external
engine, so its applicator `chiApply` is a parameter) — then post-operation
noise.  Only the intensities and the process matrix are consulted; the label
keys the decomposition cache and does not alter the channel. -/
def executeOp (n : ℕ) (chiApply : List ℂ → (ℕ → ℝ) → (ℕ → ℂ) → (ℕ → ℂ))
    (spec : IqsCustomOp) (op : QOp) (rs : ℕ → ℝ) (ψ : ℕ → ℂ) : ℕ → ℂ :=
  noiseOnQubits n spec.post_dephasing spec.post_depolarizing
    spec.post_amplitude_damping spec.post_bitflip (opQubits op)
    (shiftStream (4 * (opQubits op).length + 1) rs)
    (if spec.process_matrix = [] then
      idealApply n op (shiftStream (4 * (opQubits op).length) rs)
        (noiseOnQubits n spec.pre_dephasing spec.pre_depolarizing
          spec.pre_amplitude_damping spec.pre_bitflip (opQubits op) rs ψ)
    else
      chiApply spec.process_matrix (shiftStream (4 * (opQubits op).length) rs)
        (noiseOnQubits n spec.pre_dephasing spec.pre_depolarizing
          spec.pre_amplitude_damping spec.pre_bitflip (opQubits op) rs ψ))

theorem executeOp_ignores_label (n : ℕ)
    (chiApply : List ℂ → (ℕ → ℝ) → (ℕ → ℂ) → (ℕ → ℂ))
    (s t : IqsCustomOp) (op : QOp) (rs : ℕ → ℝ) (ψ : ℕ → ℂ)
    (h1 : s.pre_dephasing = t.pre_dephasing)
    (h2 : s.pre_depolarizing = t.pre_depolarizing)
    (h3 : s.pre_amplitude_damping = t.pre_amplitude_damping)
    (h4 : s.pre_bitflip = t.pre_bitflip)
    (h5 : s.process_matrix = t.process_matrix)
    (h6 : s.post_dephasing = t.post_dephasing)
    (h7 : s.post_depolarizing = t.post_depolarizing)
    (h8 : s.post_amplitude_damping = t.post_amplitude_damping)
    (h9 : s.post_bitflip = t.post_bitflip) :
    executeOp n chiApply s op rs ψ = executeOp n chiApply t op rs ψ := by
  cases s
  cases t
  simp only [] at h1 h2 h3 h4 h5 h6 h7 h8 h9
  subst h1 h2 h3 h4 h5 h6 h7 h8 h9
  rfl

/-- The callback registration surface of `IqsConfig`: one optional callback
per operation family. -/
structure IqsConfigCallbacks where
  PrepZ : Option (ℕ → IqsCustomOp)
  RotationXY : Option (ℕ → ℝ → ℝ → IqsCustomOp)
  RotationZ : Option (ℕ → ℝ → IqsCustomOp)
  CPhaseRotation : Option (ℕ → ℕ → ℝ → IqsCustomOp)
  ISwapRotation : Option (ℕ → ℕ → ℝ → IqsCustomOp)
  MeasZ : Option (ℕ → IqsCustomOp)

/-- Modelled from the spec: Custom Operation Dispatch — the spec used for an
operation is the registered family callback at the operation's arguments, or
the ideal sentinel `k_iqs_ideal_op` when no callback is registered. -/
def specFor (cfg : IqsConfigCallbacks) : QOp → IqsCustomOp
  | QOp.prepOp q => cfg.PrepZ.elim k_iqs_ideal_op fun f => f q
  | QOp.rotXYOp q phi γ => cfg.RotationXY.elim k_iqs_ideal_op fun f => f q phi γ
  | QOp.rotZOp q γ => cfg.RotationZ.elim k_iqs_ideal_op fun f => f q γ
  | QOp.cphaseOp a b θ => cfg.CPhaseRotation.elim k_iqs_ideal_op fun f => f a b θ
  | QOp.iswapOp a b θ => cfg.ISwapRotation.elim k_iqs_ideal_op fun f => f a b θ
  | QOp.measOp q => cfg.MeasZ.elim k_iqs_ideal_op fun f => f q

/-- Running a circuit through dispatch and the channel engine, each operation
consuming a fixed budget of 17 stream draws. -/
def runCircuit (n : ℕ) (chiApply : List ℂ → (ℕ → ℝ) → (ℕ → ℂ) → (ℕ → ℂ))
    (cfg : IqsConfigCallbacks) : List QOp → (ℕ → ℝ) → (ℕ → ℂ) → (ℕ → ℂ)
  | [], _, ψ => ψ
  | op :: ops, rs, ψ =>
    runCircuit n chiApply cfg ops (shiftStream 17 rs)
      (executeOp n chiApply (specFor cfg op) op rs ψ)

/-- `CustomPrepZ` of `qft_error.cpp` / `ghz_error.cpp`: a zero-noise,
empty-process-matrix spec labelled `"prep_z"`. -/
def CustomPrepZ (q1 : ℕ) : IqsCustomOp := ⟨0, 0, 0, 0, [], "prep_z", 0, 0, 0, 0⟩

/-- `CustomRotationXY` of `qft_error.cpp`: the zero-noise ideal spec. -/
def CustomRotationXY (qubit : ℕ) (phi gamma : ℝ) : IqsCustomOp :=
  ⟨0, 0, 0, 0, [], "rotation_x_y", 0, 0, 0, 0⟩

/-- `CustomRotationZ` of `qft_error.cpp`: the zero-noise ideal spec. -/
def CustomRotationZ (qubit : ℕ) (gamma : ℝ) : IqsCustomOp :=
  ⟨0, 0, 0, 0, [], "rotation_z", 0, 0, 0, 0⟩

/-- `CustomISwapRotation` of `qft_error.cpp`: the zero-noise ideal spec. -/
def CustomISwapRotation (qubit_1 qubit_2 : ℕ) (gamma : ℝ) : IqsCustomOp :=
  ⟨0, 0, 0, 0, [], "i_swap_rotation", 0, 0, 0, 0⟩

/-- `CustomCPhaseRotation` of `qft_error.cpp`: the zero-noise ideal spec. -/
def CustomCPhaseRotation (qubit_1 qubit_2 : ℕ) (gamma : ℝ) : IqsCustomOp :=
  ⟨0, 0, 0, 0, [], "c_phase_rotation", 0, 0, 0, 0⟩

/-- The `qft_error.cpp` configuration: every gate family registered with the
zero-noise callbacks above (no measurement callback is registered there). -/
def zeroNoiseConfig : IqsConfigCallbacks :=
  ⟨some CustomPrepZ, some CustomRotationXY, some CustomRotationZ,
    some CustomCPhaseRotation, some CustomISwapRotation, none⟩

/-- The configuration with no callbacks registered at all. -/
def noCallbackConfig : IqsConfigCallbacks := ⟨none, none, none, none, none, none⟩

/-- Claim C7: running any circuit with the zero-noise ideal-spec callbacks of
`qft_error.cpp` registered produces exactly the state produced with no
callbacks registered — for every chi-matrix applicator, every random stream
and every initial state.  The two configurations are observationally
equivalent, so every query returns identical results. -/
theorem zero_noise_callbacks_equal_no_callbacks (n : ℕ)
    (chiApply : List ℂ → (ℕ → ℝ) → (ℕ → ℂ) → (ℕ → ℂ))
    (circuit : List QOp) (rs : ℕ → ℝ) (ψ : ℕ → ℂ) :
    runCircuit n chiApply zeroNoiseConfig circuit rs ψ =
      runCircuit n chiApply noCallbackConfig circuit rs ψ := by
  induction circuit generalizing rs ψ with
  | nil => rfl
  | cons op ops ih =>
    have hL : runCircuit n chiApply zeroNoiseConfig (op :: ops) rs ψ =
        runCircuit n chiApply zeroNoiseConfig ops (shiftStream 17 rs)
          (executeOp n chiApply (specFor zeroNoiseConfig op) op rs ψ) := rfl
    have hR : runCircuit n chiApply noCallbackConfig (op :: ops) rs ψ =
        runCircuit n chiApply noCallbackConfig ops (shiftStream 17 rs)
          (executeOp n chiApply (specFor noCallbackConfig op) op rs ψ) := rfl
    have hexec : executeOp n chiApply (specFor zeroNoiseConfig op) op rs ψ =
        executeOp n chiApply (specFor noCallbackConfig op) op rs ψ := by
      apply executeOp_ignores_label <;> cases op <;> rfl
    rw [hL, hR, ih, hexec]

/-- Claim C9: the four query operations leave the amplitude vector unchanged
for every session state; `getProbabilities` twice in succession with no
intervening operation returns identical results; and `getSamples` never
collapses the maintained state, however large `count` is. -/
theorem queries_leave_state_unchanged (n : ℕ) (s : SimSession n)
    (qubits basisList : List ℕ) (count : ℕ) :
    (getProbabilities s qubits).2.amp = s.amp ∧
    (getAmplitudes s basisList).2.amp = s.amp ∧
    (getExpectationValue s qubits).2.amp = s.amp ∧
    (getSamples count qubits s).2.amp = s.amp ∧
    (getProbabilities ((getProbabilities s qubits).2) qubits).1 =
      (getProbabilities s qubits).1 :=
  ⟨rfl, rfl, rfl, rfl, rfl⟩

/-- Witness for claim C4 at the concrete input `q1 = 0`, `q2 = 1`, the sample
amplitude assignment, and basis index 2. -/
theorem SwapA_pi_is_full_swap_witness :
    (0 : ℕ) ≠ 1 ∧ SwapA 0 1 Real.pi sampleAmp 2 = sampleAmp (swapBits 0 1 2) :=
  ⟨by decide, SwapA_pi_is_full_swap 0 1 (by decide) sampleAmp 2⟩
